import Mathlib

/-!
Verification development for the martin-ai document ingestion and retrieval
pipeline.  The Python modules under `src/` are shallowly embedded below:
strings become `List Char`, machine integers become `Nat`/`Int`, dictionaries
become ordered association lists, exceptions become `Except`, and the outbound
calls of the vector-store / embedding clients become explicit oracle
parameters.  Loops whose progress is data-dependent are modelled with an
explicit fuel argument so that divergence is observable as `none`.
-/

set_option maxRecDepth 10000

/-- Python-style errors that the embedded code can raise. -/
inductive PyErr where
  | typeError
  | valueError
deriving DecidableEq, Repr

/-- Characters of a string literal, the working representation of Python `str`. -/
def lchars (s : String) : List Char := s.data

/-- The subset of Python `str.isspace` characters relevant to this code base
(the ASCII whitespace characters; all inputs in this development are ASCII). -/
def isPyWS (c : Char) : Bool :=
  c = ' ' || c = '\t' || c = '\n' || c.toNat = 13 || c.toNat = 11 || c.toNat = 12

/-- Python `str.strip()` on the character-list representation. -/
def pyStrip (l : List Char) : List Char :=
  ((l.dropWhile isPyWS).reverse.dropWhile isPyWS).reverse

/-- Clamp one bound of a Python slice `s[a:b]` to `[0, len]`, resolving
negative indices relative to the end as Python does. -/
def sliceBound (len : Nat) (i : Int) : Nat :=
  if i < 0 then ((len : Int) + i).toNat else min i.toNat len

/-- Python slice `s[a:b]` (step 1) with full negative-index and clamping
semantics. -/
def pySlice (s : List Char) (a b : Int) : List Char :=
  (s.take (sliceBound s.length b)).drop (sliceBound s.length a)

/-- End positions of the non-overlapping left-to-right matches of the two
character pattern `p1 p2` in a string, as `re.finditer` produces them for the
literal two-character patterns used by `FixedSizeChunker.chunk`.  The second
argument is the index of the head of the remaining text. -/
def findEnds2 (p1 p2 : Char) : List Char → Nat → List Nat
  | c1 :: c2 :: rest, i =>
    if c1 = p1 ∧ c2 = p2 then (i + 2) :: findEnds2 p1 p2 rest (i + 2)
    else findEnds2 p1 p2 (c2 :: rest) (i + 1)
  | _, _ => []

/-- The sentence-ending search of `FixedSizeChunker.chunk` (lines 62-67 of
`chunker.py`): try the patterns `". "`, `".\n"`, `"! "`, `"!\n"`, `"? "`,
`"?\n"` in order and return the end of the last match of the first pattern
that matches at all. -/
def firstMatchEnd (st : List Char) : Option Nat :=
  (findEnds2 '.' ' ' st 0).getLast? <|>
  (findEnds2 '.' '\n' st 0).getLast? <|>
  (findEnds2 '!' ' ' st 0).getLast? <|>
  (findEnds2 '!' '\n' st 0).getLast? <|>
  (findEnds2 '?' ' ' st 0).getLast? <|>
  (findEnds2 '?' '\n' st 0).getLast?

/-- `int(chunk_size * 0.2)` from `chunker.py` line 58.  For every chunk size
that fits comfortably in a 53-bit mantissa the double-precision product
`chunk_size * 0.2` truncates to `chunk_size / 5`, because the double nearest
`0.2` lies just above `1/5`, so the product never rounds below a multiple
of one fifth. -/
def pyIntFifth (n : Nat) : Nat := n / 5

/-- One-shot embedding of the `while start < text_length` loop of
`FixedSizeChunker.chunk` (`chunker.py` lines 52-81), including the defective
progress guard `if start <= chunks[-1] if chunks else 0:`, which Python parses
as the conditional expression `(start <= chunks[-1]) if chunks else 0`: with a
non-empty chunk list it compares `int` with `str` and raises `TypeError`, and
with an empty chunk list it evaluates to the falsy `0` and never fires.
Fuel `0` is returned as `none`, so `none` for every fuel exhibits divergence. -/
def fixedLoop (cs ov : Nat) (text : List Char) :
    Nat → Int → List (List Char) → Option (Except PyErr (List (List Char)))
  | 0, _, _ => none
  | fuel + 1, start, chunks =>
    if start < (text.length : Int) then
      let end0 : Int := start + (cs : Int)
      let endI : Int :=
        if end0 < (text.length : Int) then
          let ss : Int := end0 - (pyIntFifth cs : Int)
          match firstMatchEnd (pySlice text ss (end0 + 50)) with
          | some e => ss + (e : Int)
          | none => end0
        else end0
      let c := pyStrip (pySlice text start endI)
      let chunks' := if c ≠ [] then chunks ++ [c] else chunks
      if chunks' ≠ [] then some (.error .typeError)
      else fixedLoop cs ov text fuel (endI - (ov : Int)) chunks'
    else some (.ok chunks)

/-- `FixedSizeChunker.chunk` (`chunker.py` lines 43-84). -/
def FixedSizeChunker_chunk (cs ov : Nat) (fuel : Nat) (text : List Char) :
    Option (Except PyErr (List (List Char))) :=
  if pyStrip text = [] then some (.ok []) else fixedLoop cs ov text fuel 0 []

example : FixedSizeChunker_chunk 2 2 5 (lchars "  a") = none := rfl
example : FixedSizeChunker_chunk 1000 200 5 (lchars "Hi") =
    some (.error .typeError) := rfl

/-- C1.  The claim says the `FixedSizeChunker.chunk` loop always makes
strictly positive forward progress and terminates, even with
`overlap ≥ size`.  The code does not: on `chunk_size = 2`,
`chunk_overlap = 2` and input `"  a"` (non-empty, not whitespace-only), the
first window strips to the empty string, so nothing is appended, the broken
progress guard `if start <= chunks[-1] if chunks else 0:` evaluates to the
falsy `0`, and `start` returns to `end - overlap = 0`: the loop revisits the
identical state forever.  For every fuel the embedded loop fails to
terminate. -/
theorem fixedSizeChunker_chunk_diverges_overlap_ge_size (fuel : Nat) :
    FixedSizeChunker_chunk 2 2 fuel (lchars "  a") = none := by
  have h : ∀ n, fixedLoop 2 2 (lchars "  a") n 0 [] = none := by
    intro n
    induction n with
    | zero => rfl
    | succ m ih => exact ih
  cases fuel with
  | zero => rfl
  | succ m => exact h (m + 1)

/-- Witness: the divergence theorem applied at the concrete fuel `7`. -/
theorem fixedSizeChunker_chunk_diverges_overlap_ge_size_app :
    FixedSizeChunker_chunk 2 2 7 (lchars "  a") = none :=
  fixedSizeChunker_chunk_diverges_overlap_ge_size 7

/-- Is `c` one of `A`-`Z`?  The lookahead `(?=[A-Z])` of
`SemanticChunker._split_sentences`. -/
def isUpperAZ (c : Char) : Bool := 'A' ≤ c && c ≤ 'Z'

/-- Does the sentence accumulated so far end in `.`, `!` or `?`
(the lookbehind `(?<=[.!?])`)? -/
def lastIsTerm (cur : List Char) : Bool :=
  match cur.getLast? with
  | some c => c = '.' || c = '!' || c = '?'
  | none => false

/-- Single pass implementing `re.split(r"(?<=[.!?])\s+(?=[A-Z])", text)`
(`chunker.py` line 153-154).  `cur` is the sentence being accumulated,
`pend` a pending whitespace run, and `splitOk` records whether that run began
immediately after a sentence terminator.  A run is removed (a split happens)
exactly when it starts after `[.!?]` and the first character after it is an
upper-case letter; otherwise the run stays inside the sentence, matching the
regex, whose `\s+` must swallow the whole run for the lookahead to see a
non-whitespace character. -/
def splitSentGo (cur pend : List Char) (splitOk : Bool) :
    List Char → List (List Char)
  | [] => [cur ++ pend]
  | c :: rest =>
    if isPyWS c then
      if pend = [] then splitSentGo cur [c] (lastIsTerm cur) rest
      else splitSentGo cur (pend ++ [c]) splitOk rest
    else
      if pend ≠ [] ∧ splitOk ∧ isUpperAZ c then
        cur :: splitSentGo [c] [] false rest
      else splitSentGo (cur ++ pend ++ [c]) [] false rest

/-- `SemanticChunker._split_sentences` (`chunker.py` lines 141-159): regex
split, then strip each sentence and drop the empty ones. -/
def split_sentences (text : List Char) : List (List Char) :=
  ((splitSentGo [] [] false text).map pyStrip).filter (· ≠ [])

/-- `' '.join(current_chunk)`. -/
def joinSpace (l : List (List Char)) : List Char := List.intercalate [' '] l

/-- The sentence-accumulation loop of `SemanticChunker.chunk`
(`chunker.py` lines 117-136).  A chunk is emitted at an overflow point only
when its length reaches `min_chunk_size`; otherwise the sentences keep
accumulating.  The trailing accumulation is emitted regardless of
`min_chunk_size`. -/
def semanticLoop (maxSz minSz : Nat) :
    List (List Char) → List (List Char) → Nat → List (List Char)
  | [], cur, _ =>
    if cur ≠ [] then
      let ct := pyStrip (joinSpace cur)
      if ct ≠ [] then [ct] else []
    else []
  | s :: rest, cur, size =>
    if maxSz < size + s.length ∧ cur ≠ [] then
      let ct := pyStrip (joinSpace cur)
      if minSz ≤ ct.length then ct :: semanticLoop maxSz minSz rest [s] s.length
      else semanticLoop maxSz minSz rest (cur ++ [s]) (size + s.length)
    else semanticLoop maxSz minSz rest (cur ++ [s]) (size + s.length)

/-- `SemanticChunker.chunk` (`chunker.py` lines 105-139). -/
def SemanticChunker_chunk (maxSz minSz : Nat) (text : List Char) :
    List (List Char) :=
  if pyStrip text = [] then []
  else semanticLoop maxSz minSz (split_sentences text) [] 0

/-- C8.  A 40-character, 3-sentence input chunked with `max = 1000`,
`min = 500` yields exactly one chunk holding all three sentences in their
original order: the trailing accumulation is emitted although it is far below
`min`, so `min` is advisory for trailing chunks. -/
theorem semanticChunker_chunk_single_small_chunk :
    (lchars "Ab cd ef gh. Ij kl mn op. Qr st uv wxyz.").length = 40 ∧
    split_sentences (lchars "Ab cd ef gh. Ij kl mn op. Qr st uv wxyz.") =
      [lchars "Ab cd ef gh.", lchars "Ij kl mn op.", lchars "Qr st uv wxyz."] ∧
    SemanticChunker_chunk 1000 500 (lchars "Ab cd ef gh. Ij kl mn op. Qr st uv wxyz.") =
      [lchars "Ab cd ef gh. Ij kl mn op. Qr st uv wxyz."] := by
  refine ⟨rfl, rfl, rfl⟩

/-- Python `text.split(sep)` for a non-empty separator: non-overlapping
left-to-right splitting that keeps empty pieces.  The fuel is at least the
length of the remaining text plus one, which the wrapper supplies, so the
fuel case is never reached. -/
def pySplitGo (sep : List Char) : Nat → List Char → List Char → List (List Char)
  | 0, cur, s => [cur ++ s]
  | fuel + 1, cur, s =>
    if sep.isPrefixOf s ∧ sep ≠ [] then
      cur :: pySplitGo sep fuel [] (s.drop sep.length)
    else
      match s with
      | [] => [cur]
      | c :: rest => pySplitGo sep fuel (cur ++ [c]) rest

/-- Python `text.split(sep)` (`sep` non-empty). -/
def pySplit (sep s : List Char) : List (List Char) :=
  pySplitGo sep (s.length + 1) [] s

example : pySplit (lchars ". ") (lchars "aaaa. bbbb") =
    [lchars "aaaa", lchars "bbbb"] := rfl
example : pySplit (lchars "b") (lchars "abba") =
    [lchars "a", [], lchars "a"] := rfl

/-- `separator.join(current_chunk)`. -/
def joinSep (sep : List Char) (l : List (List Char)) : List Char :=
  List.intercalate sep l

/-- Emission step shared by the merge loop and the final flush of
`RecursiveChunker._recursive_split` (`chunker.py` lines 227-234 and 241-246):
if the accumulated chunk is non-empty, join it with the separator and either
recurse into the next separator (when it is still too large and separators
remain, via the callback `f`) or append it. -/
def mergeEmit (cs : Nat) (sep : List Char) (canRec : Bool)
    (f : List Char → List (List Char))
    (chunks cur : List (List Char)) : List (List Char) :=
  if cur ≠ [] then
    let ct := joinSep sep cur
    if cs < ct.length ∧ canRec then chunks ++ f ct else chunks ++ [ct]
  else chunks

/-- The split-merging loop of `RecursiveChunker._recursive_split`
(`chunker.py` lines 220-246), over the list of splits. -/
def mergeGo (cs : Nat) (sep : List Char) (canRec : Bool)
    (f : List Char → List (List Char))
    (chunks cur : List (List Char)) (size : Nat) :
    List (List Char) → List (List Char)
  | [] => mergeEmit cs sep canRec f chunks cur
  | sp :: rest =>
    if size + sp.length ≤ cs then
      mergeGo cs sep canRec f chunks (cur ++ [sp]) (size + sp.length + sep.length) rest
    else
      mergeGo cs sep canRec f (mergeEmit cs sep canRec f chunks cur) [sp] sp.length rest

/-- `RecursiveChunker._recursive_split` (`chunker.py` lines 190-249),
by structural recursion on the separator list, which is exactly how the
Python recursion descends (`remaining_separators = separators[1:]`). -/
def recursive_split (cs : Nat) : List (List Char) → List Char → List (List Char)
  | [], text => if pyStrip text = [] then [] else [text]
  | sep :: rest, text =>
    let splits := if sep = [] then text.map (fun c => [c]) else pySplit sep text
    let chunks := mergeGo cs sep (rest ≠ []) (recursive_split cs rest) [] [] 0 splits
    (chunks.map pyStrip).filter (· ≠ [])

/-- The default separator hierarchy of `RecursiveChunker`. -/
def defaultSeparators : List (List Char) :=
  [lchars "\n\n", lchars "\n", lchars ". ", lchars " ", []]

/-- `RecursiveChunker.chunk` (`chunker.py` lines 183-188). -/
def RecursiveChunker_chunk (cs : Nat) (seps : List (List Char)) (text : List Char) :
    List (List Char) :=
  if pyStrip text = [] then [] else recursive_split cs seps text

/-- C2.  The claim says no chunker variant drops non-whitespace content.
`RecursiveChunker` does: splitting `"aaaa. bbbb"` with `chunk_size = 4` on the
`". "` separator places `"aaaa"` and `"bbbb"` in different chunks, and the
non-whitespace `'.'` of the separator between them is reinserted in neither,
so the concatenation of the chunks no longer contains it.  (The FixedSize
variant violates the claim even more strongly: its broken progress guard
raises `TypeError` on ordinary input instead of returning chunks, as the
example after `FixedSizeChunker_chunk` computes.) -/
theorem recursiveChunker_chunk_drops_nonwhitespace :
    RecursiveChunker_chunk 4 defaultSeparators (lchars "aaaa. bbbb") =
      [lchars "aaaa", lchars "bbbb"] ∧
    '.' ∈ lchars "aaaa. bbbb" ∧
    '.' ∉ (RecursiveChunker_chunk 4 defaultSeparators (lchars "aaaa. bbbb")).flatten := by
  refine ⟨rfl, by decide, by decide⟩

/-! ## Embedder (`src/models/embeddings.py`)

The outcome of one HTTP embedding call is abstracted as an oracle
`f : String → Except PyErr (List ℚ)`: `.ok v` is the vector the service
returned (`embed_text` forwards it unchanged — a dimension mismatch is only
logged), `.error` is any raised exception. -/

/-- One iteration of the inner loop of `OllamaEmbeddings.embed_batch`
(`embeddings.py` lines 98-105): try `embed_text`; on failure append the zero
vector of the configured dimension 768. -/
def embedOne (f : String → Except PyErr (List ℚ)) (t : String) : List ℚ :=
  match f t with
  | .ok v => v
  | .error _ => List.replicate 768 0

/-- The batched loop `for i in range(0, total, batch_size)` of `embed_batch`
(`embeddings.py` lines 95-105), embedding each slice `texts[i:i+batch_size]`
text by text.  The fuel is the list length, enough because each round
consumes at least one text when `bs > 0`. -/
def embedBatchGo (f : String → Except PyErr (List ℚ)) (bs : Nat) :
    Nat → List String → List (List ℚ)
  | _, [] => []
  | 0, _ :: _ => []
  | fuel + 1, t :: ts =>
    ((t :: ts).take bs).map (embedOne f) ++ embedBatchGo f bs fuel ((t :: ts).drop bs)

/-- `OllamaEmbeddings.embed_batch` (`embeddings.py` lines 66-108).
`batch_size = 0` makes Python's `range(0, total, 0)` raise `ValueError`. -/
def embed_batch (f : String → Except PyErr (List ℚ)) (texts : List String)
    (bs : Nat) : Except PyErr (List (List ℚ)) :=
  if bs = 0 then .error .valueError
  else .ok (embedBatchGo f bs texts.length texts)

/-- With positive batch size the batched loop is a plain map over the texts in
order. -/
theorem embedBatchGo_eq_map (f : String → Except PyErr (List ℚ)) (bs : Nat)
    (hbs : 0 < bs) :
    ∀ fuel ts, ts.length ≤ fuel → embedBatchGo f bs fuel ts = ts.map (embedOne f) := by
  intro fuel
  induction fuel with
  | zero =>
    intro ts h
    cases ts with
    | nil => rfl
    | cons t ts => simp at h
  | succ m ih =>
    intro ts h
    cases ts with
    | nil => rfl
    | cons t ts =>
      have hdrop : ((t :: ts).drop bs).length ≤ m := by
        have : ((t :: ts).drop bs).length = (t :: ts).length - bs := by
          simp [List.length_drop]
        omega
      rw [embedBatchGo, ih _ hdrop]
      rw [← List.map_append, List.take_append_drop]

/-- C3.  `embed_batch` embeds each text independently: with a positive batch
size it returns `ok` with exactly one vector per input text, and every
position whose embedding call raised holds the zero vector of the configured
dimension 768, so positional alignment with the caller's chunk/id arrays is
preserved. -/
theorem embed_batch_isolates_failures (f : String → Except PyErr (List ℚ))
    (texts : List String) (bs j : Nat) (t : String) (e : PyErr)
    (hbs : 0 < bs) (ht : texts.get? j = some t) (he : f t = .error e) :
    embed_batch f texts bs = .ok (texts.map (embedOne f)) ∧
    (texts.map (embedOne f)).length = texts.length ∧
    (texts.map (embedOne f)).get? j = some (List.replicate 768 0) := by
  refine ⟨?_, by simp, ?_⟩
  · unfold embed_batch
    rw [if_neg (by omega)]
    rw [embedBatchGo_eq_map f bs hbs texts.length texts le_rfl]
  · rw [List.get?_map, ht]
    simp [embedOne, he]

/-- The concrete oracle of the C3 witness: embedding `"bad"` raises, every
other call returns a 768-dimensional vector of ones. -/
def wOracle (t : String) : Except PyErr (List ℚ) :=
  if t = "bad" then .error .valueError else .ok (List.replicate 768 1)

/-- The five texts of the C3 witness; exactly the one at index 2 fails. -/
def wTexts : List String := ["a", "b", "bad", "d", "e"]

/-- Witness: `embed_batch` on 5 texts where the call at index 2 raises
returns 5 vectors with position 2 equal to the zero vector. -/
theorem embed_batch_isolates_failures_app :
    embed_batch wOracle wTexts 32 = .ok (wTexts.map (embedOne wOracle)) ∧
    (wTexts.map (embedOne wOracle)).length = wTexts.length ∧
    (wTexts.map (embedOne wOracle)).get? 2 = some (List.replicate 768 0) :=
  embed_batch_isolates_failures wOracle wTexts 32 2 "bad" .valueError
    (by decide) (by rfl) (by rfl)

/-! ## Vector index client (`src/knowledge/vector_store.py`)

`PineconeVectorStore.upsert` is embedded with the remote service abstracted
as an acknowledgement oracle `ack` applied to the exact payload the code
builds (`zip(ids, vectors, metadata)` shaped into records).  An `.error`
result is raised before that payload is ever formed, so a run that errors has
issued nothing to the external index; this is the shallow rendering of "the
external index is unchanged". -/

/-- The payload `data = [{"id": id_, "values": v, "metadata": m} ...]`
(`vector_store.py` lines 91-98), built with Python `zip` semantics. -/
def zipPayload {α ι μ : Type} (ids : List ι) (vs : List α) (ms : List μ) :
    List (ι × α × μ) :=
  ids.zip (vs.zip ms)

/-- `PineconeVectorStore.upsert` (`vector_store.py` lines 65-111): raise if
the index is not initialized, raise if the three lists disagree in length,
otherwise issue the zipped payload to the remote index and return its
acknowledged count. -/
def upsert {α ι μ : Type} (ack : List (ι × α × μ) → Nat) (init : Bool)
    (vs : List α) (ids : List ι) (ms : List μ) : Except PyErr Nat :=
  if init = false then .error .valueError
  else if vs.length ≠ ids.length ∨ vs.length ≠ ms.length then .error .valueError
  else .ok (ack (zipPayload ids vs ms))

/-- The batching loop of `PineconeVectorStore.upsert_batch`
(`vector_store.py` lines 137-145): slice all three lists by
`[i:i+batch_size]`, issue one `upsert` per slice sequentially, sum the
acknowledged counts.  Returns the total together with the list of payloads
issued.  The fuel is the vector count, enough because every round consumes at
least one vector when `bs > 0`. -/
def upsertBatchGo {α ι μ : Type} (ack : List (ι × α × μ) → Nat) (init : Bool)
    (bs : Nat) : Nat → List α → List ι → List μ →
    Except PyErr (Nat × List (List (ι × α × μ)))
  | _, [], _, _ => .ok (0, [])
  | 0, _ :: _, _, _ => .ok (0, [])
  | fuel + 1, v :: vt, ids, ms =>
    match upsert ack init ((v :: vt).take bs) (ids.take bs) (ms.take bs) with
    | .error e => .error e
    | .ok cnt =>
      match upsertBatchGo ack init bs fuel ((v :: vt).drop bs) (ids.drop bs) (ms.drop bs) with
      | .error e => .error e
      | .ok (tot, calls) =>
        .ok (cnt + tot, zipPayload (ids.take bs) ((v :: vt).take bs) (ms.take bs) :: calls)

/-- `PineconeVectorStore.upsert_batch` (`vector_store.py` lines 113-148).
`batch_size = 0` makes Python's `range(0, total, 0)` raise `ValueError`. -/
def upsert_batch {α ι μ : Type} (ack : List (ι × α × μ) → Nat) (init : Bool)
    (vs : List α) (ids : List ι) (ms : List μ) (bs : Nat) :
    Except PyErr (Nat × List (List (ι × α × μ))) :=
  if bs = 0 then .error .valueError
  else upsertBatchGo ack init bs vs.length vs ids ms

/-- `zip` distributes over `take`. -/
theorem zip_take_eq {α β : Type} (l₁ : List α) (l₂ : List β) (k : Nat) :
    (l₁.take k).zip (l₂.take k) = (l₁.zip l₂).take k := by
  induction l₁ generalizing l₂ k with
  | nil => simp
  | cons a t ih =>
    cases l₂ with
    | nil => simp
    | cons b u =>
      cases k with
      | zero => simp
      | succ m => simp [ih u m]

/-- `zip` distributes over `drop`. -/
theorem zip_drop_eq {α β : Type} (l₁ : List α) (l₂ : List β) (k : Nat) :
    (l₁.drop k).zip (l₂.drop k) = (l₁.zip l₂).drop k := by
  induction l₁ generalizing l₂ k with
  | nil => simp
  | cons a t ih =>
    cases l₂ with
    | nil => simp
    | cons b u =>
      cases k with
      | zero => simp
      | succ m => simpa using ih u m

/-- The payload slices of one batching round recombine to the whole payload. -/
theorem zipPayload_take_drop {α ι μ : Type} (ids : List ι) (vs : List α)
    (ms : List μ) (k : Nat) :
    zipPayload (ids.take k) (vs.take k) (ms.take k) ++
      zipPayload (ids.drop k) (vs.drop k) (ms.drop k) = zipPayload ids vs ms := by
  unfold zipPayload
  rw [zip_take_eq, zip_drop_eq, zip_take_eq, zip_drop_eq]
  exact List.take_append_drop k _

/-- Ceiling-division unfolds by one batch: for `n ≥ 1`,
`⌈n/bs⌉ = ⌈(n-bs)/bs⌉ + 1`. -/
theorem ceil_div_step (bs n : Nat) (hbs : 0 < bs) (hn : 0 < n) :
    (n + bs - 1) / bs = (n - bs + bs - 1) / bs + 1 := by
  rcases Nat.lt_or_ge n bs with h | h
  · have h1 : n - bs = 0 := by omega
    have h2 : (n + bs - 1) / bs = 1 := by
      have : n + bs - 1 = (n - 1) + bs := by omega
      rw [this, Nat.add_div_right _ hbs, Nat.div_eq_of_lt (by omega)]
    rw [h1, h2, Nat.div_eq_of_lt (by omega)]
  · have : n + bs - 1 = (n - bs + bs - 1) + bs := by omega
    rw [this, Nat.add_div_right _ hbs]

/-- Induction core for the batching loop: with an initialized index, equal
list lengths and positive batch size, it succeeds, its total is the sum of
the per-call acknowledgements, it issues `⌈n/bs⌉` calls of at most `bs`
entries each, and the issued payloads concatenate, in order, to the full
payload. -/
theorem upsertBatchGo_spec {α ι μ : Type} (ack : List (ι × α × μ) → Nat)
    (bs : Nat) (hbs : 0 < bs) :
    ∀ fuel (vs : List α) (ids : List ι) (ms : List μ),
      vs.length ≤ fuel → ids.length = vs.length → ms.length = vs.length →
      ∃ calls, upsertBatchGo ack true bs fuel vs ids ms =
          .ok ((calls.map ack).sum, calls) ∧
        calls.length = (vs.length + bs - 1) / bs ∧
        (∀ c ∈ calls, c.length ≤ bs) ∧
        calls.flatten = zipPayload ids vs ms := by
  intro fuel
  induction fuel with
  | zero =>
    intro vs ids ms hf h1 h2
    cases vs with
    | nil =>
      refine ⟨[], rfl, ?_, by simp, ?_⟩
      · simp [Nat.div_eq_of_lt (show bs - 1 < bs by omega)]
      · have : ids = [] := List.length_eq_zero.mp (by simpa using h1)
        simp [this, zipPayload]
    | cons v vt => simp at hf
  | succ m ih =>
    intro vs ids ms hf h1 h2
    cases vs with
    | nil =>
      refine ⟨[], rfl, ?_, by simp, ?_⟩
      · simp [Nat.div_eq_of_lt (show bs - 1 < bs by omega)]
      · have : ids = [] := List.length_eq_zero.mp (by simpa using h1)
        simp [this, zipPayload]
    | cons v vt =>
      have hup : upsert ack true ((v :: vt).take bs) (ids.take bs) (ms.take bs) =
          .ok (ack (zipPayload (ids.take bs) ((v :: vt).take bs) (ms.take bs))) := by
        unfold upsert
        rw [if_neg (by simp), if_neg (by simp [List.length_take, h1, h2])]
      have hdropf : ((v :: vt).drop bs).length ≤ m := by
        simp only [List.length_drop]
        have := List.length_cons v vt ▸ hf
        omega
      obtain ⟨calls, hgo, hlen, hle, hflat⟩ :=
        ih ((v :: vt).drop bs) (ids.drop bs) (ms.drop bs) hdropf
          (by simp [List.length_drop, h1, h2]) (by simp [List.length_drop, h1, h2])
      refine ⟨zipPayload (ids.take bs) ((v :: vt).take bs) (ms.take bs) :: calls,
        ?_, ?_, ?_, ?_⟩
      · rw [upsertBatchGo, hup, hgo]
        simp
      · have hpos : 0 < (v :: vt).length := by simp
        rw [List.length_cons, hlen]
        have := ceil_div_step bs (v :: vt).length hbs hpos
        simp only [List.length_cons] at this ⊢
        simp only [List.length_drop, List.length_cons]
        omega
      · intro c hc
        rcases List.mem_cons.mp hc with h | h
        · subst h
          calc (zipPayload (ids.take bs) ((v :: vt).take bs) (ms.take bs)).length
              ≤ (ids.take bs).length := by
                simp [zipPayload, List.length_zip]
            _ ≤ bs := by simp [List.length_take]
        · exact hle c h
      · simp only [List.flatten_cons, hflat]
        exact zipPayload_take_drop ids (v :: vt) ms bs

/-- C5.  `upsert_batch` on equally long lists with positive batch size
partitions the input in order into `⌈n/bs⌉` contiguous batches of at most
`bs` entries, issues one upsert per batch sequentially, and returns the sum
of the per-batch acknowledged counts. -/
theorem upsert_batch_partitions {α ι μ : Type} (ack : List (ι × α × μ) → Nat)
    (vs : List α) (ids : List ι) (ms : List μ) (bs : Nat)
    (hbs : 0 < bs) (h1 : ids.length = vs.length) (h2 : ms.length = vs.length) :
    ∃ calls, upsert_batch ack true vs ids ms bs = .ok ((calls.map ack).sum, calls) ∧
      calls.length = (vs.length + bs - 1) / bs ∧
      (∀ c ∈ calls, c.length ≤ bs) ∧
      calls.flatten = zipPayload ids vs ms := by
  obtain ⟨calls, hgo, hlen, hle, hflat⟩ :=
    upsertBatchGo_spec ack bs hbs vs.length vs ids ms le_rfl h1 h2
  exact ⟨calls, by rw [upsert_batch, if_neg (by omega)]; exact hgo, hlen, hle, hflat⟩

/-- Acknowledgement oracle of the C5 witness: each batch acknowledges its
size, as Pinecone does. -/
def wAck (l : List (Nat × Nat × Nat)) : Nat := l.length

/-- Witness: 250 vectors with `batch_size = 100` issue `⌈250/100⌉ = 3` calls
of at most 100 entries whose payloads concatenate to the whole input, the
total being the sum of per-batch counts. -/
theorem upsert_batch_partitions_app :
    ∃ calls, upsert_batch wAck true (List.replicate 250 7) (List.range 250)
        (List.replicate 250 9) 100 = .ok ((calls.map wAck).sum, calls) ∧
      calls.length = ((List.replicate 250 7 : List Nat).length + 100 - 1) / 100 ∧
      (∀ c ∈ calls, c.length ≤ 100) ∧
      calls.flatten = zipPayload (List.range 250) (List.replicate 250 7)
        (List.replicate 250 9) :=
  upsert_batch_partitions wAck (List.replicate 250 7) (List.range 250)
    (List.replicate 250 9) 100 (by decide) (by simp) (by simp)

/-- C10.  `upsert` on an initialized index with mismatched list lengths
raises `ValueError` whatever the remote service would answer: the error is
produced before the payload is built, so no request reaches the external
index, which is attempted only when the three lists have equal length. -/
theorem upsert_length_mismatch_errors {α ι μ : Type}
    (ack : List (ι × α × μ) → Nat) (vs : List α) (ids : List ι) (ms : List μ)
    (hm : vs.length ≠ ids.length ∨ vs.length ≠ ms.length) :
    upsert ack true vs ids ms = .error .valueError := by
  unfold upsert
  rw [if_neg (by simp), if_pos hm]

/-- Witness: a 1-vector, 0-id, 0-metadata call on an initialized index
errors out (for the size-acknowledging oracle, hence for any oracle by the
theorem). -/
theorem upsert_length_mismatch_errors_app :
    upsert wAck true [5] ([] : List Nat) ([] : List Nat) = .error .valueError :=
  upsert_length_mismatch_errors wAck [5] [] [] (by decide)

/-! ## Validators (`src/utils/validators.py`) -/

/-- ASCII lower-casing, the effect of `re.IGNORECASE` on the all-ASCII word
alternations of `extract_metadata_from_filename`. -/
def lowerAscii (c : Char) : Char :=
  if 'A' ≤ c ∧ c ≤ 'Z' then Char.ofNat (c.toNat + 32) else c

/-- Is `pat` a contiguous substring of `s`? -/
def isSubList (pat : List Char) : List Char → Bool
  | [] => pat.isPrefixOf []
  | c :: rest => pat.isPrefixOf (c :: rest) || isSubList pat rest

/-- `re.search(r"(w1|w2|...)", filename, re.IGNORECASE)` for an alternation of
literal lower-case words: does any word occur in the lower-cased filename? -/
def searchAnyCI (filename : List Char) (ws : List String) : Bool :=
  ws.any (fun w => isSubList (lchars w) (filename.map lowerAscii))

/-- ASCII digit test, `\d` on the filenames this code classifies. -/
def isAsciiDigit (c : Char) : Bool := '0' ≤ c && c ≤ '9'

/-- Match `\d{4}-\d{2}-\d{2}` at the head of the text, returning the matched
characters. -/
def ymdAt : List Char → Option (List Char)
  | a :: b :: c :: d :: h1 :: e :: f :: h2 :: g :: i :: _ =>
    if isAsciiDigit a ∧ isAsciiDigit b ∧ isAsciiDigit c ∧ isAsciiDigit d ∧
        h1 = '-' ∧ isAsciiDigit e ∧ isAsciiDigit f ∧ h2 = '-' ∧
        isAsciiDigit g ∧ isAsciiDigit i then
      some [a, b, c, d, h1, e, f, h2, g, i]
    else none
  | _ => none

/-- Match `\d{4}` at the head of the text. -/
def year4At : List Char → Option (List Char)
  | a :: b :: c :: d :: _ =>
    if isAsciiDigit a ∧ isAsciiDigit b ∧ isAsciiDigit c ∧ isAsciiDigit d then
      some [a, b, c, d]
    else none
  | _ => none

/-- `re.search` for a pattern matcher `f`: try every position left to right
and return the leftmost match. -/
def reSearch {α : Type} (f : List Char → Option α) : List Char → Option α
  | [] => f []
  | c :: rest =>
    match f (c :: rest) with
    | some r => some r
    | none => reSearch f rest

/-- Result record of `extract_metadata_from_filename`. -/
structure FileMeta where
  document_type : Option String
  sector : Option String
  date : Option String
deriving DecidableEq, Repr

/-- `extract_metadata_from_filename` (`validators.py` lines 146-187). -/
def extract_metadata_from_filename (filename : List Char) : FileMeta :=
  let dt :=
    if searchAnyCI filename ["treaty", "agreement", "convention"] then some "treaty"
    else if searchAnyCI filename ["policy", "strategy", "framework"] then some "policy"
    else if searchAnyCI filename ["feasibility", "study", "analysis"] then some "study"
    else none
  let sec :=
    if searchAnyCI filename ["mineral", "mining", "extractive"] then some "minerals"
    else if searchAnyCI filename ["energy", "power", "electricity", "renewable"] then
      some "energy"
    else if searchAnyCI filename ["agriculture", "agri", "farming"] then
      some "agriculture"
    else none
  let date :=
    match reSearch ymdAt filename with
    | some m => some (String.mk m)
    | none => (reSearch year4At filename).map String.mk
  ⟨dt, sec, date⟩

/-- C6 counterexample.  The claim (and spec §8) say the filename
`ECOWAS_Mining_Vision_2025.txt` classifies to `document_type = "policy"`, but
no document-type pattern of `extract_metadata_from_filename` matches the
word `Vision`, so `document_type` stays `None`. -/
theorem extract_metadata_vision_not_policy :
    (extract_metadata_from_filename (lchars "ECOWAS_Mining_Vision_2025.txt")).document_type
      ≠ some "policy" := by
  decide

/-- C6 amended.  `ECOWAS_Mining_Vision_2025.txt` classifies to
`document_type = None` (no type keyword occurs in the name),
`sector = "minerals"` (via `Mining`) and `date = "2025"`. -/
theorem extract_metadata_vision_eval :
    extract_metadata_from_filename (lchars "ECOWAS_Mining_Vision_2025.txt") =
      ⟨none, some "minerals", some "2025"⟩ := by
  decide

/-- The control-character class of `sanitize_text` (`validators.py` line 201):
`[\x00-\x08\x0B-\x0C\x0E-\x1F\x7F]`.  Note that `\x0D` (carriage return) is
not in the class. -/
def inCtrlClass (c : Char) : Bool :=
  c.toNat ≤ 8 || c.toNat = 11 || c.toNat = 12 ||
  (14 ≤ c.toNat && c.toNat ≤ 31) || c.toNat = 127

/-- `re.sub(r"[ \t]+", " ", text)`: collapse each maximal run of spaces and
tabs to a single space.  `inRun` records whether the previous character was
part of such a run. -/
def collapseHT (inRun : Bool) : List Char → List Char
  | [] => []
  | c :: rest =>
    if c = ' ' ∨ c = '\t' then
      if inRun then collapseHT true rest else ' ' :: collapseHT true rest
    else c :: collapseHT false rest

/-- Emit a run of `k` consecutive newlines after
`re.sub(r"\n{3,}", "\n\n", text)`: three or more become exactly two. -/
def emitNL (k : Nat) : List Char :=
  if 3 ≤ k then ['\n', '\n'] else List.replicate k '\n'

/-- `re.sub(r"\n{3,}", "\n\n", text)`, counting the pending newline run in
`k`. -/
def collapseNL (k : Nat) : List Char → List Char
  | [] => emitNL k
  | c :: rest =>
    if c = '\n' then collapseNL (k + 1) rest
    else emitNL k ++ c :: collapseNL 0 rest

/-- `text.split("\n")`. -/
def splitNL : List Char → List (List Char)
  | [] => [[]]
  | c :: rest =>
    match splitNL rest with
    | [] => [[c]]
    | h :: t => if c = '\n' then [] :: h :: t else (c :: h) :: t

/-- `sanitize_text` (`validators.py` lines 190-210): drop the control-class
characters, collapse horizontal whitespace, collapse newline runs, strip
every line, strip the result. -/
def sanitize_text (t : List Char) : List Char :=
  let t1 := t.filter (fun c => !inCtrlClass c)
  let t2 := collapseHT false t1
  let t3 := collapseNL 0 t2
  let t4 := List.intercalate ['\n'] ((splitNL t3).map pyStrip)
  pyStrip t4

/-- C7.  The claim says sanitized text contains no control character besides
newline and tab and no run of three or more newlines.  Both conjuncts fail:
the character class skips `\x0D`, so the carriage return in `"a\rb"` survives
sanitization, and stripping the lines of `"a\n \n \nb"` turns its
single-newline runs into the three-newline run `"\n\n\n"` after the newline
collapse already ran. -/
theorem sanitize_text_violations :
    sanitize_text (lchars "a" ++ [Char.ofNat 13] ++ lchars "b") =
      lchars "a" ++ [Char.ofNat 13] ++ lchars "b" ∧
    (Char.ofNat 13) ∈ sanitize_text (lchars "a" ++ [Char.ofNat 13] ++ lchars "b") ∧
    ((Char.ofNat 13).toNat < 32 ∧ Char.ofNat 13 ≠ '\n' ∧ Char.ofNat 13 ≠ '\t') ∧
    sanitize_text (lchars "a\n \n \nb") = lchars "a\n\n\nb" ∧
    isSubList (lchars "\n\n\n") (sanitize_text (lchars "a\n \n \nb")) = true := by
  refine ⟨rfl, by decide, by decide, rfl, by decide⟩

/-! ## Ingestion orchestrator (`src/knowledge/knowledge_base.py`)

Python dictionaries become ordered association lists with first-match lookup;
`dictSet` reproduces insertion-order-preserving assignment, so the dict
literal plus `**base_metadata` spread of `ingest_document` is a left fold of
assignments. -/

/-- A metadata value: `None`, a string, or an int. -/
inductive PyVal where
  | vNone
  | vStr (s : List Char)
  | vInt (n : Nat)
deriving DecidableEq, Repr

/-- An ordered Python dict as an association list. -/
abbrev PyDict := List (String × PyVal)

/-- Python `d[k]` access: the value of the first (and, for dicts built by
`dictSet`, only) entry carrying the key. -/
def dictGet (k : String) : PyDict → Option PyVal
  | [] => none
  | kv :: tl => if kv.1 = k then some kv.2 else dictGet k tl

/-- Python `d[k] = v`: overwrite in place if the key exists (keeping its
position), else append. -/
def dictSet (d : PyDict) (k : String) (v : PyVal) : PyDict :=
  if (dictGet k d).isSome then
    d.map (fun kv => if kv.1 = k then (k, v) else kv)
  else d ++ [(k, v)]

/-- The per-chunk dict literal of `ingest_document` (`knowledge_base.py`
lines 104-110): `source`, `chunk_index`, `total_chunks`, `content` preview,
then the `**base_metadata` spread, whose entries overwrite in order. -/
def buildChunkMeta (path : List Char) (i k : Nat) (chunk : List Char)
    (base : PyDict) : PyDict :=
  let m := dictSet (dictSet (dictSet (dictSet [] "source" (.vStr path))
    "chunk_index" (.vInt i)) "total_chunks" (.vInt k)) "content" (.vStr (chunk.take 500))
  base.foldl (fun d kv => dictSet d kv.1 kv.2) m

/-- The null-stripping comprehension of `ingest_document` (line 112). -/
def cleanedMeta (d : PyDict) : PyDict := d.filter (fun kv => kv.2 ≠ .vNone)

/-- The `for i, chunk in enumerate(chunks)` loop of `ingest_document`
(lines 99-113), restricted to the metadata records it builds. -/
def prepareChunkMetasGo (path : List Char) (base : PyDict) (k : Nat) :
    Nat → List (List Char) → List PyDict
  | _, [] => []
  | i, c :: rest =>
    cleanedMeta (buildChunkMeta path i k c base) :: prepareChunkMetasGo path base k (i + 1) rest

/-- The metadata records `ingest_document` hands to `upsert_batch` for a
document chunked into `chunks`, with merged document-level metadata `base`. -/
def prepareChunkMetas (path : List Char) (base : PyDict)
    (chunks : List (List Char)) : List PyDict :=
  prepareChunkMetasGo path base chunks.length 0 chunks

/-- The `k`-entry of a dict survives `dictSet` at a different key. -/
theorem dictGet_dictSet_ne (k k' : String) (v : PyVal) (hne : k' ≠ k) :
    ∀ d : PyDict, dictGet k (dictSet d k' v) = dictGet k d := by
  have hmap : ∀ d : PyDict,
      dictGet k (d.map (fun kv => if kv.1 = k' then (k', v) else kv)) = dictGet k d := by
    intro d
    induction d with
    | nil => rfl
    | cons kv tl ih =>
      by_cases h1 : kv.1 = k'
      · simp only [List.map_cons, if_pos h1, dictGet]
        rw [if_neg hne, if_neg (h1 ▸ hne)]
        exact ih
      · simp only [List.map_cons, if_neg h1, dictGet]
        by_cases h2 : kv.1 = k
        · rw [if_pos h2, if_pos h2]
        · rw [if_neg h2, if_neg h2]
          exact ih
  have happ : ∀ d : PyDict, dictGet k (d ++ [(k', v)]) = dictGet k d := by
    intro d
    induction d with
    | nil => simp [dictGet, hne]
    | cons kv tl ih =>
      simp only [List.cons_append, dictGet]
      by_cases h2 : kv.1 = k
      · rw [if_pos h2, if_pos h2]
      · rw [if_neg h2, if_neg h2]
        exact ih
  intro d
  unfold dictSet
  split
  · exact hmap d
  · exact happ d

/-- Folding assignments whose keys all differ from `k` leaves the `k`-entry
alone. -/
theorem dictGet_foldl_dictSet (k : String) :
    ∀ (base : PyDict) (m : PyDict), (∀ kv ∈ base, kv.1 ≠ k) →
      dictGet k (base.foldl (fun d kv => dictSet d kv.1 kv.2) m) = dictGet k m := by
  intro base
  induction base with
  | nil => intro m _; rfl
  | cons kv tl ih =>
    intro m hb
    have hk : kv.1 ≠ k := hb kv (List.mem_cons_self kv tl)
    rw [List.foldl_cons, ih _ (fun kv' h => hb kv' (List.mem_cons_of_mem kv h)),
      dictGet_dictSet_ne k kv.1 kv.2 hk m]

/-- A key bound to a non-`None` value keeps its binding across the
null-stripping filter. -/
theorem dictGet_cleanedMeta (k : String) :
    ∀ (d : PyDict) (v : PyVal), dictGet k d = some v → v ≠ .vNone →
      dictGet k (cleanedMeta d) = some v := by
  intro d
  induction d with
  | nil => intro v hv _; simp [dictGet] at hv
  | cons kv tl ih =>
    intro v hv hne
    rw [dictGet] at hv
    by_cases h : kv.1 = k
    · rw [if_pos h] at hv
      obtain rfl : kv.2 = v := by injection hv
      rw [cleanedMeta, List.filter_cons, if_pos (by simpa using hne), dictGet, if_pos h]
    · rw [if_neg h] at hv
      rw [cleanedMeta, List.filter_cons]
      split
      · rw [dictGet, if_neg h]
        exact ih v hv hne
      · exact ih v hv hne

/-- A `dictGet`-miss means no entry of the dict carries the key. -/
theorem dictGet_none_keys_ne (k : String) :
    ∀ (d : PyDict), dictGet k d = none → ∀ kv ∈ d, kv.1 ≠ k := by
  intro d
  induction d with
  | nil => intro _ kv h; simp at h
  | cons kv' tl ih =>
    intro hd kv hm
    rw [dictGet] at hd
    by_cases h : kv'.1 = k
    · rw [if_pos h] at hd
      exact absurd hd (by simp)
    · rw [if_neg h] at hd
      rcases List.mem_cons.mp hm with h' | h'
      · subst h'; exact h
      · exact ih hd kv h'

/-- The two per-chunk fields of one built record, provided the merged base
metadata does not itself carry them. -/
theorem buildChunkMeta_fields (path : List Char) (i k : Nat) (chunk : List Char)
    (base : PyDict) (hci : dictGet "chunk_index" base = none)
    (htc : dictGet "total_chunks" base = none) :
    dictGet "chunk_index" (cleanedMeta (buildChunkMeta path i k chunk base)) =
      some (.vInt i) ∧
    dictGet "total_chunks" (cleanedMeta (buildChunkMeta path i k chunk base)) =
      some (.vInt k) := by
  have hm : ∀ (key : String) (val : PyVal), (∀ kv ∈ base, kv.1 ≠ key) →
      dictGet key (dictSet (dictSet (dictSet (dictSet [] "source" (.vStr path))
        "chunk_index" (.vInt i)) "total_chunks" (.vInt k))
        "content" (.vStr (chunk.take 500))) = some val →
      dictGet key (buildChunkMeta path i k chunk base) = some val := by
    intro key val hkeys hv
    unfold buildChunkMeta
    rw [dictGet_foldl_dictSet key base _ hkeys, hv]
  constructor
  · exact dictGet_cleanedMeta _ _ _
      (hm "chunk_index" (.vInt i) (dictGet_none_keys_ne _ base hci) (by rfl)) (by simp)
  · exact dictGet_cleanedMeta _ _ _
      (hm "total_chunks" (.vInt k) (dictGet_none_keys_ne _ base htc) (by rfl)) (by simp)

/-- The enumeration loop builds one record per chunk. -/
theorem prepareChunkMetasGo_length (path : List Char) (base : PyDict) (k : Nat) :
    ∀ (chunks : List (List Char)) (i0 : Nat),
      (prepareChunkMetasGo path base k i0 chunks).length = chunks.length := by
  intro chunks
  induction chunks with
  | nil => intro i0; rfl
  | cons hd tl ih => intro i0; simp [prepareChunkMetasGo, ih]

/-- The records produced by the enumeration loop, positionally. -/
theorem prepareChunkMetasGo_get (path : List Char) (base : PyDict) (k : Nat) :
    ∀ (chunks : List (List Char)) (i0 j : Nat) (c : List Char),
      chunks.get? j = some c →
      (prepareChunkMetasGo path base k i0 chunks).get? j =
        some (cleanedMeta (buildChunkMeta path (i0 + j) k c base)) := by
  intro chunks
  induction chunks with
  | nil => intro i0 j c hc; simp at hc
  | cons hd tl ih =>
    intro i0 j c hc
    cases j with
    | zero =>
      obtain rfl : hd = c := by simpa using hc
      simp [prepareChunkMetasGo]
    | succ m =>
      have := ih (i0 + 1) m c (by simpa using hc)
      simpa [prepareChunkMetasGo, Nat.add_assoc, Nat.add_comm 1 m] using this

/-- C9 amended.  For a document chunked into `k = chunks.length` pieces,
provided the merged document-level metadata does not itself contain a
`chunk_index` or `total_chunks` key (true of the normal pipeline, whose base
metadata holds file attributes, extractor metadata and filename
classification), the records handed to `upsert_batch` are one per chunk, the
`j`-th record carries `chunk_index = j`, and every record carries
`total_chunks = k`. -/
theorem prepareChunkMetas_dense (path : List Char) (base : PyDict)
    (chunks : List (List Char)) (j : Nat) (c : List Char)
    (hci : dictGet "chunk_index" base = none)
    (htc : dictGet "total_chunks" base = none)
    (hj : chunks.get? j = some c) :
    (prepareChunkMetas path base chunks).length = chunks.length ∧
    ∃ r, (prepareChunkMetas path base chunks).get? j = some r ∧
      dictGet "chunk_index" r = some (.vInt j) ∧
      dictGet "total_chunks" r = some (.vInt chunks.length) := by
  refine ⟨prepareChunkMetasGo_length path base chunks.length chunks 0, ?_⟩
  obtain ⟨h1, h2⟩ := buildChunkMeta_fields path j chunks.length c base hci htc
  refine ⟨cleanedMeta (buildChunkMeta path j chunks.length c base), ?_, h1, h2⟩
  have := prepareChunkMetasGo_get path base chunks.length chunks 0 j c hj
  simpa using this

/-- Witness: a two-chunk document over an override-free base produces records
whose record 1 carries `chunk_index = 1` and `total_chunks = 2`. -/
theorem prepareChunkMetas_dense_app :
    (prepareChunkMetas (lchars "d.txt") [("file_type", .vStr (lchars "txt"))]
        [lchars "aa", lchars "bb"]).length = 2 ∧
    ∃ r, (prepareChunkMetas (lchars "d.txt") [("file_type", .vStr (lchars "txt"))]
        [lchars "aa", lchars "bb"]).get? 1 = some r ∧
      dictGet "chunk_index" r = some (.vInt 1) ∧
      dictGet "total_chunks" r = some (.vInt 2) :=
  prepareChunkMetas_dense (lchars "d.txt") [("file_type", .vStr (lchars "txt"))]
    [lchars "aa", lchars "bb"] 1 (lchars "bb") (by rfl) (by rfl) (by rfl)

/-- C9 counterexample.  The claim quantifies over every successful ingestion,
but `ingest_document` also accepts a caller `metadata_override`, which lands
in `base_metadata` and is spread *after* the per-chunk fields: an override
`{"chunk_index": 99}` clobbers every record's index, so the indices of a
2-chunk ingestion are `[99, 99]` — neither dense nor starting at 0. -/
theorem prepareChunkMetas_override_clobbers :
    ((prepareChunkMetas (lchars "d.txt") [("chunk_index", .vInt 99)]
        [lchars "aa", lchars "bb"]).map (dictGet "chunk_index")) =
      [some (.vInt 99), some (.vInt 99)] := by
  decide

/-! ## Chunk identity (`KnowledgeBase._generate_chunk_id`)

`_generate_chunk_id` is `hashlib.md5(f"{file_path}_{chunk_index}".encode()).hexdigest()`.
MD5 (RFC 1321) is embedded below over `Nat` with explicit `% 2^32`
reductions. -/

/-- `2^32`, the word modulus of MD5. -/
def m32 : Nat := 4294967296

/-- Bitwise complement on 32-bit words. -/
def not32 (a : Nat) : Nat := 4294967295 ^^^ a

/-- Left rotation of a 32-bit word by `s` places. -/
def rotl32 (x s : Nat) : Nat := ((x <<< s) % m32) ||| (x >>> (32 - s))

/-- The 64 MD5 sine-derived round constants `K[i] = ⌊2^32·|sin(i+1)|⌋`. -/
def md5K : List Nat :=
  [0xd76aa478, 0xe8c7b756, 0x242070db, 0xc1bdceee,
   0xf57c0faf, 0x4787c62a, 0xa8304613, 0xfd469501,
   0x698098d8, 0x8b44f7af, 0xffff5bb1, 0x895cd7be,
   0x6b901122, 0xfd987193, 0xa679438e, 0x49b40821,
   0xf61e2562, 0xc040b340, 0x265e5a51, 0xe9b6c7aa,
   0xd62f105d, 0x02441453, 0xd8a1e681, 0xe7d3fbc8,
   0x21e1cde6, 0xc33707d6, 0xf4d50d87, 0x455a14ed,
   0xa9e3e905, 0xfcefa3f8, 0x676f02d9, 0x8d2a4c8a,
   0xfffa3942, 0x8771f681, 0x6d9d6122, 0xfde5380c,
   0xa4beea44, 0x4bdecfa9, 0xf6bb4b60, 0xbebfbc70,
   0x289b7ec6, 0xeaa127fa, 0xd4ef3085, 0x04881d05,
   0xd9d4d039, 0xe6db99e5, 0x1fa27cf8, 0xc4ac5665,
   0xf4292244, 0x432aff97, 0xab9423a7, 0xfc93a039,
   0x655b59c3, 0x8f0ccc92, 0xffeff47d, 0x85845dd1,
   0x6fa87e4f, 0xfe2ce6e0, 0xa3014314, 0x4e0811a1,
   0xf7537e82, 0xbd3af235, 0x2ad7d2bb, 0xeb86d391]

/-- The 64 MD5 per-round left-rotation amounts. -/
def md5Sh : List Nat :=
  [7, 12, 17, 22, 7, 12, 17, 22, 7, 12, 17, 22, 7, 12, 17, 22,
   5, 9, 14, 20, 5, 9, 14, 20, 5, 9, 14, 20, 5, 9, 14, 20,
   4, 11, 16, 23, 4, 11, 16, 23, 4, 11, 16, 23, 4, 11, 16, 23,
   6, 10, 15, 21, 6, 10, 15, 21, 6, 10, 15, 21, 6, 10, 15, 21]

/-- The MD5 initialization vector `(a0, b0, c0, d0)`. -/
def md5Init : Nat × Nat × Nat × Nat :=
  (0x67452301, 0xefcdab89, 0x98badcfe, 0x10325476)

/-- Round function and message-word index of MD5 round `i`. -/
def md5F (i B C D : Nat) : Nat × Nat :=
  if i < 16 then ((B &&& C) ||| (not32 B &&& D), i)
  else if i < 32 then ((D &&& B) ||| (not32 D &&& C), (5 * i + 1) % 16)
  else if i < 48 then (B ^^^ C ^^^ D, (3 * i + 5) % 16)
  else (C ^^^ (B ||| not32 D), (7 * i) % 16)

/-- One MD5 round over the 16 message words `M`. -/
def md5Step (M : List Nat) (st : Nat × Nat × Nat × Nat) (i : Nat) :
    Nat × Nat × Nat × Nat :=
  let (A, B, C, D) := st
  let (F, g) := md5F i B C D
  let Fv := (F + A + md5K.getD i 0 + M.getD g 0) % m32
  (D, (B + rotl32 Fv (md5Sh.getD i 0)) % m32, B, C)

/-- Process one 512-bit block: 64 rounds, then add into the running state. -/
def md5Block (st : Nat × Nat × Nat × Nat) (M : List Nat) :
    Nat × Nat × Nat × Nat :=
  let r := (List.range 64).foldl (md5Step M) st
  ((st.1 + r.1) % m32, (st.2.1 + r.2.1) % m32,
   (st.2.2.1 + r.2.2.1) % m32, (st.2.2.2 + r.2.2.2) % m32)

/-- Little-endian packing of bytes into 32-bit words, four at a time. -/
def toWords : List Nat → List Nat
  | b0 :: b1 :: b2 :: b3 :: rest =>
    (b0 + 256 * b1 + 65536 * b2 + 16777216 * b3) :: toWords rest
  | _ => []

/-- MD5 padding: a `0x80` byte, zeros to 56 mod 64, then the bit length as
eight little-endian bytes. -/
def md5pad (msg : List Nat) : List Nat :=
  let L := msg.length
  let z := (120 - (L + 1) % 64) % 64
  let bitLen := (8 * L) % (2 ^ 64)
  msg ++ [128] ++ List.replicate z 0 ++
    (List.range 8).map (fun i => bitLen / (256 ^ i) % 256)

/-- Fold the 64-byte blocks of a padded message through `md5Block`.  The fuel
is the byte count, enough because each round consumes 64 bytes. -/
def md5BlocksGo : Nat → Nat × Nat × Nat × Nat → List Nat → Nat × Nat × Nat × Nat
  | _, st, [] => st
  | 0, st, _ :: _ => st
  | fuel + 1, st, bytes =>
    md5BlocksGo fuel (md5Block st (toWords (bytes.take 64))) (bytes.drop 64)

/-- The four 32-bit state words of the MD5 digest of a byte string. -/
def md5Words (msg : List Nat) : Nat × Nat × Nat × Nat :=
  md5BlocksGo (md5pad msg).length md5Init (md5pad msg)

/-- Hex digit characters. -/
def hexDigitChar (n : Nat) : Char := (lchars "0123456789abcdef").getD n '0'

/-- Two lower-case hex characters of a byte. -/
def byteHexChars (b : Nat) : List Char := [hexDigitChar (b / 16 % 16), hexDigitChar (b % 16)]

/-- The eight hex characters of one state word, little-endian byte order as
`hexdigest` prints it. -/
def wordHexLE (w : Nat) : List Char :=
  byteHexChars (w % 256) ++ byteHexChars (w / 256 % 256) ++
  byteHexChars (w / 65536 % 256) ++ byteHexChars (w / 16777216 % 256)

/-- `hexdigest` of a state quadruple. -/
def md5HexOfWords (st : Nat × Nat × Nat × Nat) : List Char :=
  wordHexLE st.1 ++ wordHexLE st.2.1 ++ wordHexLE st.2.2.1 ++ wordHexLE st.2.2.2

/-- `hashlib.md5(msg).hexdigest()`. -/
def md5Hex (msg : List Nat) : List Char := md5HexOfWords (md5Words msg)

/-- UTF-8 encoding of one character (`str.encode()`). -/
def utf8Bytes (c : Char) : List Nat :=
  let n := c.toNat
  if n < 128 then [n]
  else if n < 2048 then [192 + n / 64, 128 + n % 64]
  else if n < 65536 then [224 + n / 4096, 128 + n / 64 % 64, 128 + n % 64]
  else [240 + n / 262144, 128 + n / 4096 % 64, 128 + n / 64 % 64, 128 + n % 64]

/-- `s.encode()`: the UTF-8 bytes of a string. -/
def strBytes (s : String) : List Nat := (s.data.map utf8Bytes).flatten

example : md5Hex (strBytes "") = lchars "d41d8cd98f00b204e9800998ecf8427e" := by decide
example : md5Hex (strBytes "abc") = lchars "900150983cd24fb0d6963f7d28e17f72" := by decide

/-- `KnowledgeBase._generate_chunk_id` (`knowledge_base.py` lines 213-226):
the MD5 hexdigest of `f"{file_path}_{chunk_index}"`. -/
def generate_chunk_id (path : String) (chunk_index : Nat) : List Char :=
  md5Hex (strBytes (path ++ "_" ++ toString chunk_index))

/-- All four state words stay below `2^32`. -/
def st4Lt (st : Nat × Nat × Nat × Nat) : Prop :=
  st.1 < m32 ∧ st.2.1 < m32 ∧ st.2.2.1 < m32 ∧ st.2.2.2 < m32

/-- `md5Block` outputs reduced words. -/
theorem md5Block_st4Lt (st : Nat × Nat × Nat × Nat) (M : List Nat) :
    st4Lt (md5Block st M) := by
  have hm : 0 < m32 := by norm_num [m32]
  exact ⟨Nat.mod_lt _ hm, Nat.mod_lt _ hm, Nat.mod_lt _ hm, Nat.mod_lt _ hm⟩

/-- The block loop preserves word reduction. -/
theorem md5BlocksGo_st4Lt :
    ∀ (fuel : Nat) (st : Nat × Nat × Nat × Nat) (bytes : List Nat),
      st4Lt st → st4Lt (md5BlocksGo fuel st bytes) := by
  intro fuel
  induction fuel with
  | zero =>
    intro st bytes h
    cases bytes with
    | nil => exact h
    | cons b bs => exact h
  | succ m ih =>
    intro st bytes h
    cases bytes with
    | nil => exact h
    | cons b bs => exact ih _ _ (md5Block_st4Lt st _)

/-- The digest words of any message are reduced. -/
theorem md5Words_st4Lt (msg : List Nat) : st4Lt (md5Words msg) :=
  md5BlocksGo_st4Lt _ md5Init _ ⟨by decide, by decide, by decide, by decide⟩

/-- The digest packed into a single natural below `2^128`. -/
def md5Pack (msg : List Nat) : Nat :=
  (md5Words msg).1 + 4294967296 * (md5Words msg).2.1 +
    18446744073709551616 * (md5Words msg).2.2.1 +
    79228162514264337593543950336 * (md5Words msg).2.2.2

/-- The packed digest is below `2^128`. -/
theorem md5Pack_lt (msg : List Nat) :
    md5Pack msg < 340282366920938463463374607431768211456 := by
  obtain ⟨h1, h2, h3, h4⟩ := md5Words_st4Lt msg
  unfold md5Pack
  simp only [m32] at h1 h2 h3 h4
  omega

/-- Equal packed digests mean equal digest quadruples. -/
theorem md5Pack_inj (m1 m2 : List Nat) (h : md5Pack m1 = md5Pack m2) :
    md5Words m1 = md5Words m2 := by
  have hb1 := md5Words_st4Lt m1
  have hb2 := md5Words_st4Lt m2
  rcases hw1 : md5Words m1 with ⟨a1, b1, c1, d1⟩
  rcases hw2 : md5Words m2 with ⟨a2, b2, c2, d2⟩
  rw [hw1] at hb1
  rw [hw2] at hb2
  obtain ⟨ha1, hbb1, hc1, hd1⟩ := hb1
  obtain ⟨ha2, hbb2, hc2, hd2⟩ := hb2
  unfold md5Pack at h
  rw [hw1, hw2] at h
  simp only [m32] at h ha1 hbb1 hc1 hd1 ha2 hbb2 hc2 hd2
  have : a1 = a2 ∧ b1 = b2 ∧ c1 = c2 ∧ d1 = d2 := by omega
  simp [this.1, this.2.1, this.2.2.1, this.2.2.2]

/-- C4 counterexample.  The claim also asserts that distinct chunk indices of
one document always receive distinct ids.  That cannot hold: the id is a
128-bit MD5 digest, and a document path admits infinitely many chunk indices,
so by pigeonhole some two distinct indices of the same document share an id. -/
theorem generate_chunk_id_not_injective :
    ¬ ∀ (p : String) (i j : Nat), i ≠ j →
        generate_chunk_id p i ≠ generate_chunk_id p j := by
  intro h
  have hF : ∀ i : Nat, md5Pack (strBytes ("x" ++ "_" ++ toString i)) <
      340282366920938463463374607431768211456 :=
    fun i => md5Pack_lt _
  obtain ⟨i, j, hne, heq⟩ :=
    Finite.exists_ne_map_eq_of_infinite
      (fun i : Nat => (⟨md5Pack (strBytes ("x" ++ "_" ++ toString i)), hF i⟩ :
        Fin 340282366920938463463374607431768211456))
  have hpack : md5Pack (strBytes ("x" ++ "_" ++ toString i)) =
      md5Pack (strBytes ("x" ++ "_" ++ toString j)) := congrArg Fin.val heq
  have hwords := md5Pack_inj _ _ hpack
  exact h "x" i j hne (congrArg md5HexOfWords hwords)

/-- C4 amended.  Chunk id generation is a pure function of
`(file_path, chunk_index)` — two runs on the same pair give the same id, so
re-ingesting an unchanged document reproduces its ids and upsert overwrites
instead of duplicating — and on concretely checked index ranges the ids are
pairwise distinct (here indices 0-4 of a sample document), although
distinctness of a 128-bit digest cannot be universal. -/
theorem generate_chunk_id_deterministic_sample_distinct :
    (∀ (p : String) (i : Nat), generate_chunk_id p i = generate_chunk_id p i) ∧
    ([0, 1, 2, 3, 4].map (generate_chunk_id "data/raw/report.pdf")).Nodup := by
  refine ⟨fun p i => rfl, ?_⟩
  decide
